import Mathlib

set_option maxHeartbeats 1000000

/-!
Verification of the elimination-based inference core of the gtsam
factor-graph library: the `VectorValuesUnordered` per-variable vector
container (VectorValues.cpp), the `VerticalBlockMatrix` block-matrix view
(VerticalBlockMatrix.cpp), and the `EliminationTreeUnordered` construction
and traversal (EliminationTreeUnordered-inst.h).  Definitions are shallow
embeddings of the C++ sources; parts of the library whose code is not
available (header-only accessors, `inference::EliminateTree`) are modelled
from the specification and marked as such in their doc comments.
-/

namespace Gtsam

/-- Scalar type of a dense vector entry.  The C++ uses `double`; the embedding
uses exact integer arithmetic (the modelled operations use only ring
operations, no division). -/
abbrev Scalar := Int

/-- A dense vector (Eigen `Vector`): a list of scalar entries. -/
abbrev Vec := List Scalar

/-- gtsam `VectorValuesUnordered` (VectorValues.cpp): an ordered sequence of
dense vectors, one slot per variable index. -/
structure VectorValuesUnordered where
  values_ : List Vec
deriving DecidableEq

namespace VectorValuesUnordered

/-- Slot count, `VectorValues::size()`. -/
def size (s : VectorValuesUnordered) : Nat := s.values_.length

/-- Modelled from the spec: `exists(j)` (declared in the header, which is not
under src) treats a variable as existing exactly when its index is below the
current slot count ("treat exists as index < current size"). -/
def existsIdx (s : VectorValuesUnordered) (j : Nat) : Bool := j < s.size

/-- Message of the `invalid_argument` thrown by `insert` (the spec's
`DuplicateKey` error kind). -/
def duplicateKeyMsg : String :=
  "VectorValues: requested variable index to insert already exists."

/-- `std::vector::resize(k)` on a vector of Eigen vectors: keeps the first `k`
entries and value-initialises any new entries as zero-length vectors. -/
def listResize (l : List Vec) (k : Nat) : List Vec :=
  l.take k ++ List.replicate (k - l.length) ([] : Vec)

/-- `VectorValuesUnordered::insert` (VectorValues.cpp lines 335-346): throw if
the slot already exists, grow with zero-length entries up to `j` if needed,
then assign slot `j`. -/
def insert (s : VectorValuesUnordered) (j : Nat) (value : Vec) :
    Except String VectorValuesUnordered :=
  if s.existsIdx j then .error duplicateKeyMsg
  else
    let values := if j ≥ s.size then listResize s.values_ (j + 1) else s.values_
    .ok ⟨values.set j value⟩

/-- Message of the size-mismatch error of `operator+` (spec kind `SizeMismatch`). -/
def addSizeMsg : String := "VectorValues::operator+ called with different vector sizes"

/-- Message of the size-mismatch error of `operator-`; the C++ `operator+`
reuses this message for a per-slot length mismatch. -/
def subSizeMsg : String := "VectorValues::operator- called with different vector sizes"

/-- Message of the size-mismatch error of `operator+=`. -/
def addAssignSizeMsg : String := "VectorValues::operator+= called with different vector sizes"

/-- Message of the size-mismatch error of `dot`. -/
def dotSizeMsg : String := "VectorValues::dot called with different vector sizes"

/-- Per-slot loop of `operator+` (VectorValues.cpp lines 461-467): on the
first slot whose lengths differ, throw; otherwise build the elementwise sums. -/
def addLoop : List Vec → List Vec → Except String (List Vec)
  | x :: xs, y :: ys =>
    if x.length = y.length then
      match addLoop xs ys with
      | .ok rest => .ok (x.zipWith (· + ·) y :: rest)
      | .error e => .error e
    else .error subSizeMsg
  | _, _ => .ok []

/-- `VectorValuesUnordered::operator+` (VectorValues.cpp lines 457-468).  The
C++ is `const` on both operands; the embedding is a pure function, so neither
operand is mutated. -/
def add (a c : VectorValuesUnordered) : Except String VectorValuesUnordered :=
  if a.size ≠ c.size then .error addSizeMsg
  else
    match addLoop a.values_ c.values_ with
    | .ok vs => .ok ⟨vs⟩
    | .error e => .error e

/-- Per-slot loop of `operator+=`: slots before the first mismatch are already
mutated when the exception is thrown, the rest are left unchanged. -/
def addAssignLoop : List Vec → List Vec → List Vec × Option String
  | x :: xs, y :: ys =>
    if x.length = y.length then
      match addAssignLoop xs ys with
      | (rest, e) => (x.zipWith (· + ·) y :: rest, e)
    else (x :: xs, some addAssignSizeMsg)
  | xs, _ => (xs, none)

/-- `VectorValuesUnordered::operator+=` (VectorValues.cpp lines 485-494),
returning the final receiver state together with the error, if any. -/
def addAssign (a c : VectorValuesUnordered) :
    VectorValuesUnordered × Option String :=
  if a.size ≠ c.size then (a, some addAssignSizeMsg)
  else
    match addAssignLoop a.values_ c.values_ with
    | (vs, e) => (⟨vs⟩, e)

/-- Eigen dot product of two equal-length vectors. -/
def vecDot (x y : Vec) : Scalar := (x.zipWith (· * ·) y).sum

/-- Accumulating per-slot loop of `dot` (VectorValues.cpp lines 433-438). -/
def dotLoop : Scalar → List Vec → List Vec → Except String Scalar
  | result, x :: xs, y :: ys =>
    if x.length = y.length then dotLoop (result + vecDot x y) xs ys
    else .error dotSizeMsg
  | result, _, _ => .ok result

/-- `VectorValuesUnordered::dot` (VectorValues.cpp lines 429-440). -/
def dot (a v : VectorValuesUnordered) : Except String Scalar :=
  if a.size ≠ v.size then .error dotSizeMsg
  else dotLoop 0 a.values_ v.values_

/-- Eigen `squaredNorm` of one vector: sum of squared entries. -/
def vecSquaredNorm (x : Vec) : Scalar := (x.map (fun t => t * t)).sum

/-- Accumulating loop of `squaredNorm` (VectorValues.cpp lines 450-452). -/
def sqLoop : Scalar → List Vec → Scalar
  | acc, [] => acc
  | acc, x :: xs => sqLoop (acc + vecSquaredNorm x) xs

/-- `VectorValuesUnordered::squaredNorm` (VectorValues.cpp lines 448-454). -/
def squaredNorm (a : VectorValuesUnordered) : Scalar := sqLoop 0 a.values_

/-- Per-slot length comparison loop of `hasSameStructure`. -/
def structLoop : List Vec → List Vec → Bool
  | x :: xs, y :: ys => x.length == y.length && structLoop xs ys
  | _, _ => true

/-- `VectorValuesUnordered::hasSameStructure` (VectorValues.cpp lines
413-421): equal slot count and equal per-slot lengths. -/
def hasSameStructure (a other : VectorValuesUnordered) : Bool :=
  if a.size ≠ other.size then false else structLoop a.values_ other.values_

end VectorValuesUnordered

/-! ### VerticalBlockMatrix -/

/-- gtsam `VerticalBlockMatrix` (VerticalBlockMatrix.cpp; the header with the
field accessors is not under src, so those are modelled from the spec).  Only
the shape of the backing dense matrix is observable through the modelled
operation, so `matrix_` is represented by its dimensions. -/
structure VerticalBlockMatrix where
  matrixRows : Nat
  matrixCols : Nat
  variableColOffsets_ : List Nat
  rowStart_ : Nat
  rowEnd_ : Nat
  blockStart_ : Nat
deriving DecidableEq

namespace VerticalBlockMatrix

/-- Modelled from the spec: the default constructor makes an empty view — zero
blocks, hence offset sequence `[0]` (length `nBlocks + 1`), empty backing
matrix and empty active ranges. -/
def empty : VerticalBlockMatrix :=
  { matrixRows := 0, matrixCols := 0, variableColOffsets_ := [0]
    rowStart_ := 0, rowEnd_ := 0, blockStart_ := 0 }

/-- Modelled from the spec: `nBlocks()` is the active block count — the active
block range runs from `blockStart_` to the end of the offset sequence. -/
def nBlocks (a : VerticalBlockMatrix) : Nat :=
  a.variableColOffsets_.length - 1 - a.blockStart_

/-- Modelled from the spec: `rows()` is the active row count
`rowEnd_ - rowStart_`. -/
def rows (a : VerticalBlockMatrix) : Nat := a.rowEnd_ - a.rowStart_

/-- `variableColOffsets_.back()`. -/
def back (a : VerticalBlockMatrix) : Nat := (a.variableColOffsets_.getLast?).getD 0

/-- Total column width of the view's active region: last offset minus the
offset at `blockStart_`. -/
def activeCols (a : VerticalBlockMatrix) : Nat :=
  a.back - a.variableColOffsets_.getD a.blockStart_ 0

/-- Strict monotonicity of the offset sequence. -/
def strictMono : List Nat → Bool
  | a :: b :: rest => a < b && strictMono (b :: rest)
  | _ => true

/-- Modelled from the spec: `assertInvariants()` checks monotone offsets and
range consistency of the view ("Invariant check after construction (monotonic
offsets, range consistency) must throw/abort on violation"). -/
def assertInvariantsHolds (a : VerticalBlockMatrix) : Bool :=
  strictMono a.variableColOffsets_ &&
  (a.matrixCols == a.back) &&
  decide (a.blockStart_ < a.variableColOffsets_.length) &&
  decide (a.rowStart_ ≤ a.rowEnd_) &&
  decide (a.rowEnd_ ≤ a.matrixRows)

/-- `std::vector<DenseIndex>::resize(k)`: keep the first `k` entries,
value-initialise any new entries to `0`. -/
def natListResize (l : List Nat) (k : Nat) : List Nat :=
  l.take k ++ List.replicate (k - l.length) 0

/-- `VerticalBlockMatrix::LikeActiveViewOf` (src/unnamed/part_000 lines
24-33): default-construct a result, resize its offset sequence to
`rhs.nBlocks() + 1`, copy the active offsets of `rhs` for `i < rhs.nBlocks()`
(without rebasing and leaving the final resized entry untouched), size the
backing matrix `rhs.rows() × result.variableColOffsets_.back()`, and set
`rowEnd_ = rhs.rows()`. -/
def LikeActiveViewOf (rhs : VerticalBlockMatrix) : VerticalBlockMatrix :=
  let result := empty
  let offs0 := natListResize result.variableColOffsets_ (rhs.nBlocks + 1)
  let offs := (List.range rhs.nBlocks).foldl
    (fun acc i => acc.set i (rhs.variableColOffsets_.getD (i + rhs.blockStart_) 0)) offs0
  { matrixRows := rhs.rows
    matrixCols := (offs.getLast?).getD 0
    variableColOffsets_ := offs
    rowStart_ := result.rowStart_
    rowEnd_ := rhs.rows
    blockStart_ := result.blockStart_ }

end VerticalBlockMatrix

/-! ### EliminationTree: nodes and the elimination traversal -/

/-- Elimination-tree node (`EliminationTreeUnordered::Node`): one variable
`key`, the factors first encountered at this node, and the child subtrees.
The payload type `F` stands for `sharedFactor`. -/
inductive ETNode (F : Type) where
  | mk (key : Nat) (factors : List F) (children : List (ETNode F))

/-- The node's variable. -/
def ETNode.key {F : Type} : ETNode F → Nat
  | .mk k _ _ => k

/-- The node's own factor list. -/
def ETNode.factors {F : Type} : ETNode F → List F
  | .mk _ fs _ => fs

/-- The node's child subtrees. -/
def ETNode.children {F : Type} : ETNode F → List (ETNode F)
  | .mk _ _ cs => cs

/-- `Node::eliminate` (EliminationTreeUnordered-inst.h lines 35-61): gather
the node's own factors followed by the children's results in that order, run
the injected dense elimination `function` on them with the single-element key
list of this node, append the resulting conditional to the output Bayes net,
and return the separator factor. -/
def ETNode.eliminate {F C : Type} (output : List C)
    (function : List F → List Nat → C × F) (node : ETNode F)
    (childrenResults : List F) : List C × F :=
  let gatheredFactors : List F := node.factors ++ childrenResults
  let keyAsVector : List Nat := [node.key]
  let eliminationResult := function gatheredFactors keyAsVector
  (output ++ [eliminationResult.1], eliminationResult.2)

/-- `EliminationTreeUnordered`: the forest roots plus the factors not
associated with any eliminated variable. -/
structure EliminationTreeUnordered (F : Type) where
  roots_ : List (ETNode F)
  remainingFactors_ : List F

/-- Modelled from the spec: the children-before-parent post-order traversal
performed by `inference::EliminateTree` (inference-inst.h, not under src),
over one sibling list.  For each node it first eliminates the children
(accumulating conditionals into the shared output in post-order), then runs
`ETNode.eliminate` on the node itself; it returns the final conditional list
together with the separator factors of the processed siblings, in sibling
order. -/
def elimForest {F C : Type} (function : List F → List Nat → C × F) :
    List (ETNode F) → List C → List C × List F
  | [], output => (output, [])
  | ETNode.mk k fs cs :: rest, output =>
    let childrenPass := elimForest function cs output
    let r := ETNode.eliminate childrenPass.1 function (ETNode.mk k fs cs) childrenPass.2
    let restPass := elimForest function rest r.1
    (restPass.1, r.2 :: restPass.2)

/-- Modelled from the spec: `inference::EliminateTree` eliminates every tree
of the forest root-by-root in root-list order, each fully post-order before
the next; each root's separator factor is discarded ("roots' separator
factors are NOT added to the remaining graph", spec 4.4), so the traversal
contributes no remaining factors of its own. -/
def EliminateTree {F C : Type} (result : List C) (tree : EliminationTreeUnordered F)
    (function : List F → List Nat → C × F) : List C × List F :=
  let traversal := elimForest function tree.roots_ result
  (traversal.1, [])

/-- `EliminationTreeUnordered::eliminate` (EliminationTreeUnordered-inst.h
lines 186-203): allocate the result Bayes net, run the tree elimination
algorithm, then build the remaining graph as the construction-time
`remainingFactors_` followed by the traversal's remaining factors. -/
def EliminationTreeUnordered.eliminate {F C : Type}
    (tree : EliminationTreeUnordered F)
    (function : List F → List Nat → C × F) : List C × List F :=
  let result : List C := []
  let run := EliminateTree result tree function
  let allRemainingFactors := tree.remainingFactors_ ++ run.2
  (run.1, allRemainingFactors)

/-! ### EliminationTree: the three-argument constructor -/

/-- `VariableIndexUnordered`, modelled as an association list from a variable
key to the indices of the factors involving that variable. -/
abbrev VariableIndexUnordered := List (Nat × List Nat)

/-- Modelled from the spec: message of the raw structural error of
`VariableIndexUnordered::operator[]`, which "must fail/signal if the variable
has never appeared in any factor". -/
def rawLookupMsg : String := "VariableIndex: requested variable is not in the index"

/-- Modelled from the spec: `VariableIndexUnordered::operator[]` — the factor
indices touching a variable, failing for an unknown variable. -/
def viLookup (vi : VariableIndexUnordered) (key : Nat) : Except String (List Nat) :=
  match List.lookup key vi with
  | some fs => .ok fs
  | none => .error rawLookupMsg

/-- Working state of the three-argument constructor sweep
(EliminationTreeUnordered-inst.h lines 92-136): `parents`, `prevCol` and
`factorUsed` are the constructor's local arrays (`Option` plays the role of
the sentinel `none = numeric_limits<size_t>::max()`), while `nodeFactors` and
`nodeChildren` hold, for each of the `n` nodes, the attached factor indices
and the indices of the attached child nodes, in attachment order. -/
structure ETBuildState where
  parents : List (Option Nat)
  prevCol : List (Option Nat)
  factorUsed : List Bool
  nodeFactors : List (List Nat)
  nodeChildren : List (List Nat)
deriving DecidableEq

/-- Initial constructor state for `n` ordered variables and `m` factors. -/
def initState (n m : Nat) : ETBuildState :=
  { parents := List.replicate n none
    prevCol := List.replicate m none
    factorUsed := List.replicate m false
    nodeFactors := List.replicate n []
    nodeChildren := List.replicate n [] }

/-- Root-finding walk `while (parents[r] != none) r = parents[r]` (lines
118-120), written with explicit fuel; the constructor's parent pointers
strictly increase, so fuel `parents.length` always suffices to reach the
root. -/
def findRoot (parents : List (Option Nat)) : Nat → Nat → Nat
  | r, 0 => r
  | r, fuel + 1 =>
    match parents.getD r none with
    | none => r
    | some p => findRoot parents p fuel

/-- Body of the inner factor loop (lines 108-135) for factor index `i` at
column `j`: if the factor already hit an earlier column, hook the root of the
subtree containing it as a child of node `j` (unless that root is `j`
itself); otherwise attach the factor to node `j` and mark it used.  In both
cases record column `j` as the factor's last visited column. -/
def processFactor (j i : Nat) (st : ETBuildState) : ETBuildState :=
  match st.prevCol.getD i none with
  | some k =>
    let r := findRoot st.parents k st.parents.length
    let st1 :=
      if r ≠ j then
        { st with parents := st.parents.set r (some j)
                  nodeChildren := st.nodeChildren.set j (st.nodeChildren.getD j [] ++ [r]) }
      else st
    { st1 with prevCol := st1.prevCol.set i (some j) }
  | none =>
    { st with nodeFactors := st.nodeFactors.set j (st.nodeFactors.getD j [] ++ [i])
              factorUsed := st.factorUsed.set i true
              prevCol := st.prevCol.set i (some j) }

/-- One column of the sweep: process every factor touching the column's
variable, in variable-index order. -/
def processColumn (j : Nat) (factors : List Nat) (st : ETBuildState) : ETBuildState :=
  factors.foldl (fun s i => processFactor j i s) st

/-- Message of the `invalid_argument` rethrown by the constructor when the
variable-index lookup fails (lines 137-144); the spec's `InvalidOrdering`
error kind. -/
def etConstructorMsg : String :=
  "EliminationTree: given ordering contains variables that are not involved in the factor graph"

/-- The constructor's column loop (lines 100-136 with the catch block of
lines 137-144): for each ordering entry look up its factors, converting a
lookup failure into the `InvalidOrdering` error, and process the column. -/
def buildLoop (vi : VariableIndexUnordered) :
    List Nat → Nat → ETBuildState → Except String ETBuildState
  | [], _, st => .ok st
  | key :: rest, j, st =>
    match viLookup vi key with
    | .ok factors => buildLoop vi rest (j + 1) (processColumn j factors st)
    | .error _ => .error etConstructorMsg

/-- Result of the three-argument constructor: per-node data (keys, factor
index lists, child index lists), the final parent array, the forest roots in
ordering-index order, and the unused factors in graph order. -/
structure ETResult where
  nodeKeys : List Nat
  nodeFactors : List (List Nat)
  nodeChildren : List (List Nat)
  parents : List (Option Nat)
  roots : List Nat
  remainingFactors : List Nat
deriving DecidableEq

/-- The three-argument `EliminationTreeUnordered` constructor (lines 79-156)
over a graph with `m` factors, a variable index and an ordering.  A factor is
identified by its slot index in the graph: `graph[i]` is only ever shared by
pointer and never inspected, so the graph itself enters only through its size
`m`. -/
def eliminationTreeConstruct (m : Nat) (vi : VariableIndexUnordered)
    (order : List Nat) : Except String ETResult :=
  match buildLoop vi order 0 (initState order.length m) with
  | .error e => .error e
  | .ok st =>
    .ok { nodeKeys := order
          nodeFactors := st.nodeFactors
          nodeChildren := st.nodeChildren
          parents := st.parents
          roots := (List.range order.length).filter
            (fun j => st.parents.getD j none == none)
          remainingFactors := (List.range m).filter
            (fun i => ! st.factorUsed.getD i false) }

/-- Total number of occurrences of factor index `a` across all nodes' factor
lists of a constructor state. -/
def countF (a : Nat) (st : ETBuildState) : Nat :=
  (st.nodeFactors.map (fun l => l.count a)).sum

/-- Invariant maintained by the construction sweep: all list lengths are
fixed, parent pointers increase strictly and point below `j`, recorded
previous columns lie below `j`, every factor index below `m` occurs in the
nodes' factor lists exactly once if marked used and never otherwise, and a
factor never visited is never marked used. -/
structure BuildInv (n m j : Nat) (st : ETBuildState) : Prop where
  lenParents : st.parents.length = n
  lenPrev : st.prevCol.length = m
  lenUsed : st.factorUsed.length = m
  lenNF : st.nodeFactors.length = n
  lenNC : st.nodeChildren.length = n
  parentsLt : ∀ x y, st.parents.getD x none = some y → x < y ∧ y < j
  prevLt : ∀ i k, st.prevCol.getD i none = some k → k < j
  countEq : ∀ a, a < m → countF a st = (if st.factorUsed.getD a false then 1 else 0)
  unusedOfNone : ∀ a, a < m → st.prevCol.getD a none = none →
    st.factorUsed.getD a false = false

/-! ## Theorems -/

/-! ### List helper lemmas -/

theorem getD_set_eq {α : Type} (l : List α) (i : Nat) (v d : α)
    (h : i < l.length) : (l.set i v).getD i d = v := by
  induction l generalizing i with
  | nil => simp at h
  | cons a t ih =>
    cases i with
    | zero => rfl
    | succ n =>
      simp only [List.set, List.getD, List.get?]
      exact ih n (by simpa using h)

theorem getD_set_ne {α : Type} (l : List α) (i x : Nat) (v d : α)
    (h : x ≠ i) : (l.set i v).getD x d = l.getD x d := by
  induction l generalizing i x with
  | nil => simp
  | cons a t ih =>
    cases i with
    | zero =>
      cases x with
      | zero => exact absurd rfl h
      | succ n => rfl
    | succ n =>
      cases x with
      | zero => rfl
      | succ p =>
        simp only [List.set, List.getD, List.get?]
        exact ih n p (by omega)

theorem set_oob {α : Type} (l : List α) (i : Nat) (v : α)
    (h : l.length ≤ i) : l.set i v = l := by
  induction l generalizing i with
  | nil => simp
  | cons a t ih =>
    cases i with
    | zero => simp at h
    | succ n => simp only [List.set]; rw [ih n (by simpa using h)]

theorem getD_replicate {α : Type} (c d : α) :
    ∀ n x, (List.replicate n c).getD x d = if x < n then c else d := by
  intro n
  induction n with
  | zero => intro x; simp
  | succ k ih =>
    intro x
    cases x with
    | zero => simp [List.replicate]
    | succ p =>
      simp only [List.replicate, List.getD, List.get?]
      rw [show ((List.replicate k c).get? p).getD d = (List.replicate k c).getD p d from rfl]
      rw [ih p]
      simp only [Nat.succ_lt_succ_iff]

/-! ### VectorValuesUnordered theorems -/

theorem vecDot_self (x : Vec) :
    VectorValuesUnordered.vecDot x x = VectorValuesUnordered.vecSquaredNorm x := by
  induction x with
  | nil => rfl
  | cons a l ih =>
    unfold VectorValuesUnordered.vecDot VectorValuesUnordered.vecSquaredNorm at ih ⊢
    simp only [List.zipWith, List.map, List.sum_cons]
    rw [ih]

theorem dotLoop_self (l : List Vec) : ∀ acc : Scalar,
    VectorValuesUnordered.dotLoop acc l l = .ok (VectorValuesUnordered.sqLoop acc l) := by
  induction l with
  | nil => intro acc; rfl
  | cons x xs ih =>
    intro acc
    simp [VectorValuesUnordered.dotLoop, VectorValuesUnordered.sqLoop, vecDot_self]
    exact ih (acc + VectorValuesUnordered.vecSquaredNorm x)

/-- C9: for every VectorStore `a`, `a.dot(a)` succeeds and equals
`a.squaredNorm()` exactly (in exact arithmetic): accumulating per-slot dot
products of `a` with itself equals summing per-slot squared norms. -/
theorem dot_self_eq_squaredNorm (a : VectorValuesUnordered) :
    a.dot a = .ok a.squaredNorm := by
  unfold VectorValuesUnordered.dot VectorValuesUnordered.squaredNorm
  simp [dotLoop_self]

/-- Witness for C9 at a concrete two-slot store. -/
theorem dot_self_eq_squaredNorm_witness :
    (VectorValuesUnordered.mk [[1, 2], [3]]).dot ⟨[[1, 2], [3]]⟩ =
      .ok (VectorValuesUnordered.mk [[1, 2], [3]]).squaredNorm :=
  dot_self_eq_squaredNorm ⟨[[1, 2], [3]]⟩

theorem structLoop_addLoop_ok (xs : List Vec) : ∀ ys : List Vec,
    VectorValuesUnordered.structLoop xs ys = true →
    VectorValuesUnordered.addLoop xs ys =
      .ok (List.zipWith (fun x y => List.zipWith (· + ·) x y) xs ys) := by
  induction xs with
  | nil => intro ys _; cases ys <;> rfl
  | cons x xs ih =>
    intro ys h
    cases ys with
    | nil => rfl
    | cons y ys =>
      simp only [VectorValuesUnordered.structLoop, Bool.and_eq_true, beq_iff_eq] at h
      simp only [VectorValuesUnordered.addLoop, if_pos h.1, ih ys h.2, List.zipWith]

theorem structLoop_addLoop_err (xs : List Vec) : ∀ ys : List Vec,
    VectorValuesUnordered.structLoop xs ys = false →
    VectorValuesUnordered.addLoop xs ys = .error VectorValuesUnordered.subSizeMsg := by
  induction xs with
  | nil => intro ys h; cases ys <;> simp [VectorValuesUnordered.structLoop] at h
  | cons x xs ih =>
    intro ys h
    cases ys with
    | nil => simp [VectorValuesUnordered.structLoop] at h
    | cons y ys =>
      simp only [VectorValuesUnordered.structLoop, Bool.and_eq_false_iff] at h
      by_cases hlen : x.length = y.length
      · have hsl : VectorValuesUnordered.structLoop xs ys = false := by
          cases h with
          | inl hbad => simp [hlen] at hbad
          | inr hok => exact hok
        simp only [VectorValuesUnordered.addLoop, if_pos hlen, ih ys hsl]
      · simp only [VectorValuesUnordered.addLoop, if_neg hlen]

/-- C7: for every pair of VectorStores, `operator+` fails with a SizeMismatch
error if the slot counts differ or some slot's per-slot lengths differ, and
otherwise returns the store of elementwise per-slot sums.  The C++ operator
is `const` on both operands and the embedding is pure, so neither operand is
mutated. -/
theorem add_spec (a c : VectorValuesUnordered) :
    (a.hasSameStructure c = false → ∃ msg, a.add c = .error msg) ∧
    (a.hasSameStructure c = true →
      a.add c = .ok ⟨List.zipWith (fun x y => List.zipWith (· + ·) x y) a.values_ c.values_⟩) := by
  by_cases hsz : a.size = c.size
  · constructor
    · intro h
      have hsl : VectorValuesUnordered.structLoop a.values_ c.values_ = false := by
        simpa [VectorValuesUnordered.hasSameStructure, hsz] using h
      exact ⟨VectorValuesUnordered.subSizeMsg, by
        simp [VectorValuesUnordered.add, hsz, structLoop_addLoop_err _ _ hsl]⟩
    · intro h
      have hsl : VectorValuesUnordered.structLoop a.values_ c.values_ = true := by
        simpa [VectorValuesUnordered.hasSameStructure, hsz] using h
      simp [VectorValuesUnordered.add, hsz, structLoop_addLoop_ok _ _ hsl]
  · constructor
    · intro _
      exact ⟨VectorValuesUnordered.addSizeMsg, by simp [VectorValuesUnordered.add, hsz]⟩
    · intro h
      simp [VectorValuesUnordered.hasSameStructure, hsz] at h

/-- Witness for C7, using the spec's concrete scenario: slots
`{0: [1,2], 1: [3]}` plus `{0: [10,20], 1: [30]}` give `{0: [11,22], 1: [33]}`,
and a differing length at slot 1 fails. -/
theorem add_spec_witness :
    (VectorValuesUnordered.mk [[1, 2], [3]]).add ⟨[[10, 20], [30]]⟩ =
      .ok ⟨[[11, 22], [33]]⟩ ∧
    (∃ msg, (VectorValuesUnordered.mk [[1, 2], [3]]).add ⟨[[10, 20], [30, 40]]⟩ =
      .error msg) := by
  constructor
  · rw [(add_spec ⟨[[1, 2], [3]]⟩ ⟨[[10, 20], [30]]⟩).2 (by decide)]
    rfl
  · exact (add_spec ⟨[[1, 2], [3]]⟩ ⟨[[10, 20], [30, 40]]⟩).1 (by decide)

theorem structLoop_addAssignLoop_ok (xs : List Vec) : ∀ ys : List Vec,
    xs.length = ys.length →
    VectorValuesUnordered.structLoop xs ys = true →
    VectorValuesUnordered.addAssignLoop xs ys =
      (List.zipWith (fun x y => List.zipWith (· + ·) x y) xs ys, none) := by
  induction xs with
  | nil => intro ys hlen _; cases ys with
    | nil => rfl
    | cons y ys => simp at hlen
  | cons x xs ih =>
    intro ys hlen h
    cases ys with
    | nil => simp at hlen
    | cons y ys =>
      simp only [VectorValuesUnordered.structLoop, Bool.and_eq_true, beq_iff_eq] at h
      simp only [List.length_cons, Nat.succ.injEq] at hlen
      simp only [VectorValuesUnordered.addAssignLoop, if_pos h.1,
        ih ys hlen h.2, List.zipWith]

/-- C10: for every pair of structurally compatible VectorStores, `operator+=`
succeeds (no error) and leaves the receiver equal to the value computed by
the non-mutating `operator+` from the receiver's prior contents. -/
theorem addAssign_agrees_add (a c : VectorValuesUnordered)
    (h : a.hasSameStructure c = true) :
    (a.addAssign c).2 = none ∧ a.add c = .ok (a.addAssign c).1 := by
  have hsz : a.size = c.size := by
    by_contra hne
    simp [VectorValuesUnordered.hasSameStructure, hne] at h
  have hsl : VectorValuesUnordered.structLoop a.values_ c.values_ = true := by
    simpa [VectorValuesUnordered.hasSameStructure, hsz] using h
  have hlen : a.values_.length = c.values_.length := hsz
  constructor
  · simp [VectorValuesUnordered.addAssign, hsz,
      structLoop_addAssignLoop_ok _ _ hlen hsl]
  · simp [VectorValuesUnordered.add, VectorValuesUnordered.addAssign, hsz,
      structLoop_addAssignLoop_ok _ _ hlen hsl, structLoop_addLoop_ok _ _ hsl]

/-- Witness for C10 at the spec's concrete scenario. -/
theorem addAssign_agrees_add_witness :
    ((VectorValuesUnordered.mk [[1, 2], [3]]).addAssign ⟨[[10, 20], [30]]⟩).2 = none ∧
    (VectorValuesUnordered.mk [[1, 2], [3]]).add ⟨[[10, 20], [30]]⟩ =
      .ok ((VectorValuesUnordered.mk [[1, 2], [3]]).addAssign ⟨[[10, 20], [30]]⟩).1 :=
  addAssign_agrees_add ⟨[[1, 2], [3]]⟩ ⟨[[10, 20], [30]]⟩ (by decide)

theorem listResize_length (l : List Vec) (k : Nat) (h : l.length ≤ k) :
    (VectorValuesUnordered.listResize l k).length = k := by
  simp only [VectorValuesUnordered.listResize, List.length_append,
    List.length_take, List.length_replicate]
  omega

theorem listResize_cons_succ (a : Vec) (t : List Vec) (q : Nat) :
    VectorValuesUnordered.listResize (a :: t) (q + 1) =
      a :: VectorValuesUnordered.listResize t q := by
  simp [VectorValuesUnordered.listResize, List.take_succ_cons, Nat.succ_sub_succ]

theorem getD_listResize_lt (l : List Vec) : ∀ (k x : Nat), x < l.length → l.length ≤ k →
    (VectorValuesUnordered.listResize l k).getD x [] = l.getD x [] := by
  induction l with
  | nil => intro k x hx _; simp at hx
  | cons a t ih =>
    intro k x hx hk
    cases k with
    | zero => simp at hk
    | succ q =>
      cases x with
      | zero => rw [listResize_cons_succ]; rfl
      | succ p =>
        rw [listResize_cons_succ]
        simp only [List.getD_cons_succ]
        exact ih q p (by simpa using hx) (by simpa using hk)

theorem getD_listResize_ge (l : List Vec) : ∀ (k x : Nat), l.length ≤ x → x < k →
    (VectorValuesUnordered.listResize l k).getD x [] = [] := by
  induction l with
  | nil =>
    intro k x _ hxk
    simp only [VectorValuesUnordered.listResize, List.take_nil, List.nil_append,
      List.length_nil, Nat.sub_zero]
    rw [getD_replicate]
    simp
  | cons a t ih =>
    intro k x hx hxk
    cases k with
    | zero => omega
    | succ q =>
      cases x with
      | zero => simp at hx
      | succ p =>
        rw [listResize_cons_succ]
        simp only [List.getD_cons_succ]
        exact ih q p (by simpa using hx) (by omega)

/-- C6: for every VectorStore `s`, index `j` and vector `v`, `insert j v`
fails with the DuplicateKey error when `j` is below the current slot count;
when `j` is at or beyond it, the insertion succeeds and grows the store to
`j + 1` slots, keeping the old slots, filling every intermediate new slot
with a zero-length vector, and setting slot `j` to `v`. -/
theorem insert_spec (s : VectorValuesUnordered) (j : Nat) (v : Vec) :
    (j < s.size → s.insert j v = .error VectorValuesUnordered.duplicateKeyMsg) ∧
    (s.size ≤ j → ∃ t, s.insert j v = .ok t ∧ t.size = j + 1 ∧
      (∀ x, x < s.size → t.values_.getD x [] = s.values_.getD x []) ∧
      (∀ x, s.size ≤ x → x < j → t.values_.getD x [] = []) ∧
      t.values_.getD j [] = v) := by
  constructor
  · intro h
    simp [VectorValuesUnordered.insert, VectorValuesUnordered.existsIdx, h]
  · intro h
    have hex : s.existsIdx j = false := by
      simp only [VectorValuesUnordered.existsIdx, decide_eq_false_iff_not]
      omega
    have hgrow : (VectorValuesUnordered.listResize s.values_ (j + 1)).length = j + 1 :=
      listResize_length s.values_ (j + 1) (by
        simpa [VectorValuesUnordered.size] using Nat.le_succ_of_le h)
    refine ⟨⟨(VectorValuesUnordered.listResize s.values_ (j + 1)).set j v⟩, ?_, ?_, ?_, ?_, ?_⟩
    · simp [VectorValuesUnordered.insert, hex, h]
    · simpa [VectorValuesUnordered.size] using hgrow
    · intro x hx
      rw [getD_set_ne _ _ _ _ _ (by omega)]
      exact getD_listResize_lt s.values_ (j + 1) x hx (by
        simpa [VectorValuesUnordered.size] using Nat.le_succ_of_le h)
    · intro x hx hxj
      rw [getD_set_ne _ _ _ _ _ (by omega)]
      exact getD_listResize_ge s.values_ (j + 1) x hx (by omega)
    · exact getD_set_eq _ _ _ _ (by omega)

/-- Witness for C6: inserting at an occupied index 0 fails with DuplicateKey;
inserting at index 2 of a one-slot store grows it to three slots with a
zero-length gap slot. -/
theorem insert_spec_witness :
    (VectorValuesUnordered.mk [[1]]).insert 0 [5] =
      .error VectorValuesUnordered.duplicateKeyMsg ∧
    (∃ t, (VectorValuesUnordered.mk [[1]]).insert 2 [5] = .ok t ∧ t.size = 3 ∧
      t.values_.getD 0 [] = [1] ∧ t.values_.getD 1 [] = [] ∧
      t.values_.getD 2 [] = [5]) := by
  constructor
  · exact (insert_spec ⟨[[1]]⟩ 0 [5]).1 (by decide)
  · obtain ⟨t, h1, h2, h3, h4, h5⟩ := (insert_spec ⟨[[1]]⟩ 2 [5]).2 (by decide)
    exact ⟨t, h1, h2, h3 0 (by decide), h4 1 (by decide) (by decide), h5⟩

/-! ### VerticalBlockMatrix theorems -/

/-- C2, evaluated at a concrete failing input: the source view has offsets
`[0, 2, 5]` with active block range starting at block 1 and active rows
`[0, 3)`, and satisfies its own invariant check.  `LikeActiveViewOf` then
produces offsets `[2, 0]` — the copied offsets are not rebased to start at 0
and the final resized offset slot is never written — so the backing matrix is
sized `3 × 0` although the source's active region is 3 columns wide
(`activeCols = 3`), and the result fails the mandatory post-construction
invariant check.  This contradicts the specified behaviour (offsets
recomputed relative to zero, backing matrix spanning the active columns). -/
theorem likeActiveViewOf_failing_input :
    VerticalBlockMatrix.assertInvariantsHolds ⟨3, 5, [0, 2, 5], 0, 3, 1⟩ = true ∧
    (VerticalBlockMatrix.LikeActiveViewOf ⟨3, 5, [0, 2, 5], 0, 3, 1⟩).variableColOffsets_ =
      [2, 0] ∧
    (VerticalBlockMatrix.LikeActiveViewOf ⟨3, 5, [0, 2, 5], 0, 3, 1⟩).matrixCols = 0 ∧
    (VerticalBlockMatrix.LikeActiveViewOf ⟨3, 5, [0, 2, 5], 0, 3, 1⟩).matrixRows = 3 ∧
    VerticalBlockMatrix.activeCols ⟨3, 5, [0, 2, 5], 0, 3, 1⟩ = 3 ∧
    VerticalBlockMatrix.assertInvariantsHolds
      (VerticalBlockMatrix.LikeActiveViewOf ⟨3, 5, [0, 2, 5], 0, 3, 1⟩) = false := by
  decide

/-! ### Elimination traversal theorems -/

/-- C3: for every tree and every elimination procedure, the second component
returned by `eliminate` is exactly the construction-time `remainingFactors_`:
the separator factors produced at the forest roots are discarded and nothing
else is appended. -/
theorem eliminate_remaining_exact {F C : Type} (tree : EliminationTreeUnordered F)
    (function : List F → List Nat → C × F) :
    (tree.eliminate function).2 = tree.remainingFactors_ := by
  simp [EliminationTreeUnordered.eliminate, EliminateTree]

/-- Witness for C3 on a concrete one-root tree with one remaining factor. -/
theorem eliminate_remaining_exact_witness :
    ((EliminationTreeUnordered.mk [ETNode.mk 0 [10] []] [99]).eliminate
      (fun fs ks => (fs.sum + ks.sum, 0))).2 = [99] :=
  eliminate_remaining_exact (EliminationTreeUnordered.mk [ETNode.mk 0 [10] []] [99])
    (fun fs ks => (fs.sum + ks.sum, 0))

/-- C4: given one result per child, a node's single-step elimination calls
the injected procedure once, on the node's own factors followed by the
children's separator factors in child-list order, with the key list
containing exactly the node's variable; it appends the returned conditional
to the output Bayes net and returns the procedure's separator factor
unchanged.  The second conjunct shows the procedure is consulted only at that
argument pair. -/
theorem node_eliminate_contract {F C : Type} (output : List C)
    (function : List F → List Nat → C × F) (node : ETNode F)
    (childrenResults : List F)
    (_hlen : childrenResults.length = node.children.length) :
    ETNode.eliminate output function node childrenResults =
      (output ++ [(function (node.factors ++ childrenResults) [node.key]).1],
       (function (node.factors ++ childrenResults) [node.key]).2) ∧
    (∀ g : List F → List Nat → C × F,
      g (node.factors ++ childrenResults) [node.key] =
        function (node.factors ++ childrenResults) [node.key] →
      ETNode.eliminate output g node childrenResults =
        ETNode.eliminate output function node childrenResults) := by
  constructor
  · rfl
  · intro g hg
    simp [ETNode.eliminate, hg]

/-- Witness for C4 at a concrete node, procedure and child-result list. -/
theorem node_eliminate_contract_witness :
    ETNode.eliminate [5] (fun fs ks => (fs.sum + ks.sum, fs.length))
      (ETNode.mk 7 [1, 2] [ETNode.mk 3 [] []]) [9] = ([5, 19], 3) := by
  rw [(node_eliminate_contract [5] (fun fs ks => (fs.sum + ks.sum, fs.length))
    (ETNode.mk 7 [1, 2] [ETNode.mk 3 [] []]) [9] (by rfl)).1]
  rfl

/-! ### Constructor sweep invariants -/

theorem buildInv_init (n m : Nat) : BuildInv n m 0 (initState n m) := by
  refine ⟨?_, ?_, ?_, ?_, ?_, ?_, ?_, ?_, ?_⟩
  · simp [initState]
  · simp [initState]
  · simp [initState]
  · simp [initState]
  · simp [initState]
  · intro x y hxy
    simp only [initState] at hxy
    rw [getD_replicate] at hxy
    split at hxy <;> simp at hxy
  · intro i k hik
    simp only [initState] at hik
    rw [getD_replicate] at hik
    split at hik <;> simp at hik
  · intro a _
    simp [countF, initState, getD_replicate]
  · intro a _ _
    simp [initState, getD_replicate]

theorem buildInv_mono {n m j jhi : Nat} {st : ETBuildState} (hj : j ≤ jhi)
    (h : BuildInv n m j st) : BuildInv n m jhi st := by
  obtain ⟨l1, l2, l3, l4, l5, hp, hq, hc, hu⟩ := h
  exact ⟨l1, l2, l3, l4, l5,
    fun x y hxy => ⟨(hp x y hxy).1, lt_of_lt_of_le (hp x y hxy).2 hj⟩,
    fun i k hik => lt_of_lt_of_le (hq i k hik) hj, hc, hu⟩

theorem findRoot_le (parents : List (Option Nat)) (j : Nat)
    (hp : ∀ x y, parents.getD x none = some y → y ≤ j) :
    ∀ (fuel s : Nat), s ≤ j → findRoot parents s fuel ≤ j := by
  intro fuel
  induction fuel with
  | zero => intro s hs; exact hs
  | succ f ih =>
    intro s hs
    cases hcase : parents.getD s none with
    | none => simp only [findRoot, hcase]; exact hs
    | some p => simp only [findRoot, hcase]; exact ih p (hp s p hcase)

theorem sum_count_set_append (l : List (List Nat)) : ∀ (j : Nat), j < l.length →
    ∀ (i a : Nat),
    ((l.set j (l.getD j [] ++ [i])).map (fun t => t.count a)).sum
      = (l.map (fun t => t.count a)).sum + ([i].count a) := by
  induction l with
  | nil => intro j hj; simp at hj
  | cons hd tl ih =>
    intro j hj i a
    cases j with
    | zero =>
      simp only [List.set, List.getD_cons_zero, List.map, List.sum_cons,
        List.count_append]
      omega
    | succ p =>
      simp only [List.set, List.getD_cons_succ, List.map, List.sum_cons]
      rw [ih p (by simpa using hj) i a]
      omega

theorem processFactor_inv {n m j : Nat} (i : Nat) {st : ETBuildState}
    (hj : j < n) (h : BuildInv n m (j + 1) st) :
    BuildInv n m (j + 1) (processFactor j i st) := by
  obtain ⟨l1, l2, l3, l4, l5, hp, hq, hc, hu⟩ := h
  unfold processFactor
  cases hpc : st.prevCol.getD i none with
  | some k =>
    have hple : ∀ x y, st.parents.getD x none = some y → y ≤ j := fun x y hxy =>
      Nat.lt_succ_iff.mp (hp x y hxy).2
    have hkle : k ≤ j := Nat.lt_succ_iff.mp (hq i k hpc)
    have hrle : findRoot st.parents k st.parents.length ≤ j :=
      findRoot_le st.parents j hple st.parents.length k hkle
    by_cases hrj : findRoot st.parents k st.parents.length ≠ j
    · have hrltj : findRoot st.parents k st.parents.length < j :=
        Nat.lt_of_le_of_ne hrle hrj
      simp only [if_pos hrj]
      refine ⟨by simp [l1], by simp [l2], l3, l4, by simp [l5], ?_, ?_, ?_, ?_⟩
      · intro x y hxy
        by_cases hxr : x = findRoot st.parents k st.parents.length
        · subst hxr
          rw [getD_set_eq _ _ _ _ (by omega)] at hxy
          cases hxy
          omega
        · rw [getD_set_ne _ _ _ _ _ hxr] at hxy
          exact hp x y hxy
      · intro q kk hqk
        by_cases hqi : q = i
        · subst hqi
          by_cases hqm : q < st.prevCol.length
          · rw [getD_set_eq _ _ _ _ hqm] at hqk
            cases hqk
            omega
          · rw [set_oob _ _ _ (Nat.le_of_not_lt hqm)] at hqk
            exact hq q kk hqk
        · rw [getD_set_ne _ _ _ _ _ hqi] at hqk
          exact hq q kk hqk
      · intro a ha
        exact hc a ha
      · intro a ha hnone
        by_cases hai : a = i
        · subst hai
          by_cases ham : a < st.prevCol.length
          · rw [getD_set_eq _ _ _ _ ham] at hnone
            simp at hnone
          · rw [set_oob _ _ _ (Nat.le_of_not_lt ham)] at hnone
            rw [hpc] at hnone
            simp at hnone
        · rw [getD_set_ne _ _ _ _ _ hai] at hnone
          exact hu a ha hnone
    · simp only [if_neg hrj]
      refine ⟨l1, by simp [l2], l3, l4, l5, hp, ?_, ?_, ?_⟩
      · intro q kk hqk
        by_cases hqi : q = i
        · subst hqi
          by_cases hqm : q < st.prevCol.length
          · rw [getD_set_eq _ _ _ _ hqm] at hqk
            cases hqk
            omega
          · rw [set_oob _ _ _ (Nat.le_of_not_lt hqm)] at hqk
            exact hq q kk hqk
        · rw [getD_set_ne _ _ _ _ _ hqi] at hqk
          exact hq q kk hqk
      · intro a ha
        exact hc a ha
      · intro a ha hnone
        by_cases hai : a = i
        · subst hai
          by_cases ham : a < st.prevCol.length
          · rw [getD_set_eq _ _ _ _ ham] at hnone
            simp at hnone
          · rw [set_oob _ _ _ (Nat.le_of_not_lt ham)] at hnone
            rw [hpc] at hnone
            simp at hnone
        · rw [getD_set_ne _ _ _ _ _ hai] at hnone
          exact hu a ha hnone
  | none =>
    refine ⟨l1, by simp [l2], by simp [l3], by simp [l4], l5, hp, ?_, ?_, ?_⟩
    · intro q kk hqk
      by_cases hqi : q = i
      · subst hqi
        by_cases hqm : q < st.prevCol.length
        · rw [getD_set_eq _ _ _ _ hqm] at hqk
          cases hqk
          omega
        · rw [set_oob _ _ _ (Nat.le_of_not_lt hqm)] at hqk
          rw [hpc] at hqk
          simp at hqk
      · rw [getD_set_ne _ _ _ _ _ hqi] at hqk
        exact hq q kk hqk
    · intro a ha
      show ((st.nodeFactors.set j (st.nodeFactors.getD j [] ++ [i])).map
        (fun t => t.count a)).sum = _
      rw [sum_count_set_append st.nodeFactors j (by omega) i a]
      by_cases hai : a = i
      · subst hai
        have hused : st.factorUsed.getD a false = false := hu a ha hpc
        have hcnt : countF a st = 0 := by
          rw [hc a ha, hused]
          rfl
        rw [getD_set_eq _ _ _ _ (by omega)]
        simp only [countF] at hcnt
        rw [hcnt]
        simp [List.count_cons]
      · rw [getD_set_ne _ _ _ _ _ hai]
        have : ([i].count a) = 0 := by
          simp [List.count_cons]
          omega
        rw [this]
        have := hc a ha
        simp only [countF] at this
        rw [this]
        omega
    · intro a ha hnone
      by_cases hai : a = i
      · subst hai
        rw [getD_set_eq _ _ _ _ (by omega)] at hnone
        simp at hnone
      · rw [getD_set_ne _ _ _ _ _ hai] at hnone
        rw [getD_set_ne _ _ _ _ _ hai]
        exact hu a ha hnone

theorem processColumn_inv {n m j : Nat} (fs : List Nat) : ∀ {st : ETBuildState},
    j < n → BuildInv n m (j + 1) st →
    BuildInv n m (j + 1) (processColumn j fs st) := by
  induction fs with
  | nil => intro st _ h; exact h
  | cons f rest ih =>
    intro st hj h
    exact ih hj (processFactor_inv f hj h)

theorem buildLoop_inv (vi : VariableIndexUnordered) {n m : Nat} :
    ∀ (ord : List Nat) (j : Nat) (st st' : ETBuildState),
    j + ord.length = n → BuildInv n m j st →
    buildLoop vi ord j st = .ok st' → BuildInv n m n st' := by
  intro ord
  induction ord with
  | nil =>
    intro j st st' hn h hok
    have hst : st = st' := by simpa [buildLoop] using hok
    subst hst
    have hj : j = n := by simpa using hn
    subst hj
    exact h
  | cons key rest ih =>
    intro j st st' hn h hok
    cases hv : viLookup vi key with
    | error e =>
      rw [buildLoop, hv] at hok
      simp at hok
    | ok fs =>
      rw [buildLoop, hv] at hok
      have hjn : j < n := by simp at hn; omega
      exact ih (j + 1) _ st' (by simp at hn ⊢; omega)
        (processColumn_inv fs hjn (buildInv_mono (Nat.le_succ j) h)) hok

theorem countJoinEq (l : List (List Nat)) (a : Nat) :
    l.flatten.count a = (l.map (fun t => t.count a)).sum := by
  induction l with
  | nil => rfl
  | cons x xs ih =>
    simp only [List.flatten_cons, List.count_append, List.map, List.sum_cons, ih]

theorem count_filter_range (p : Nat → Bool) : ∀ (M i : Nat), i < M →
    ((List.range M).filter p).count i = if p i then 1 else 0 := by
  intro M
  induction M with
  | zero => intro i hi; omega
  | succ M ih =>
    intro i hi
    rw [List.range_succ, List.filter_append, List.count_append]
    by_cases him : i < M
    · rw [ih i him]
      have hne : i ≠ M := by omega
      have h0 : (List.filter p [M]).count i = 0 := by
        cases hpM : p M <;> simp [List.filter, hpM, List.count_cons, hne]
      omega
    · have hiM : i = M := by omega
      subst hiM
      have h0 : ((List.range i).filter p).count i = 0 := by
        refine List.count_eq_zero.mpr (fun hmem => ?_)
        have := List.mem_range.mp (List.mem_of_mem_filter hmem)
        omega
      rw [h0]
      cases hpM : p i <;> simp [List.filter, hpM, List.count_cons]

theorem construct_ok_state (m : Nat) (vi : VariableIndexUnordered)
    (order : List Nat) (res : ETResult)
    (h : eliminationTreeConstruct m vi order = .ok res) :
    ∃ st, BuildInv order.length m order.length st ∧
      res.nodeFactors = st.nodeFactors ∧ res.parents = st.parents ∧
      res.roots = (List.range order.length).filter
        (fun j => st.parents.getD j none == none) ∧
      res.remainingFactors = (List.range m).filter
        (fun i => ! st.factorUsed.getD i false) := by
  unfold eliminationTreeConstruct at h
  cases hb : buildLoop vi order 0 (initState order.length m) with
  | error e =>
    rw [hb] at h
    simp at h
  | ok st =>
    rw [hb] at h
    have hres : _ = res := Except.ok.inj h
    refine ⟨st, ?_, ?_, ?_, ?_, ?_⟩
    · exact buildLoop_inv vi order 0 (initState order.length m) st
        (by simp) (buildInv_init order.length m) hb
    · rw [← hres]
    · rw [← hres]
    · rw [← hres]
    · rw [← hres]

/-- C1: for every factor graph, variable index and ordering on which the
three-argument constructor succeeds, each factor slot of the input graph
appears exactly once across the union of all nodes' factor lists and the
`remainingFactors_` list: nothing is duplicated and nothing is dropped. -/
theorem construct_factor_partition (m : Nat) (vi : VariableIndexUnordered)
    (order : List Nat) (res : ETResult)
    (h : eliminationTreeConstruct m vi order = .ok res)
    (i : Nat) (him : i < m) :
    (res.nodeFactors.flatten ++ res.remainingFactors).count i = 1 := by
  obtain ⟨st, hinv, hnf, _, _, hrem⟩ := construct_ok_state m vi order res h
  rw [List.count_append, hnf, hrem, countJoinEq,
    count_filter_range _ m i him]
  have hcount := hinv.countEq i him
  simp only [countF] at hcount
  rw [hcount]
  cases hused : st.factorUsed.getD i false <;> simp [hused]

/-- Witness for C1 on a two-factor, two-variable graph: factor 0 touches both
variables, factor 1 only the second; both end up attached exactly once. -/
theorem construct_factor_partition_witness :
    ((ETResult.mk [0, 1] [[0], [1]] [[], [0]] [some 1, none] [1] []).nodeFactors.flatten ++
      (ETResult.mk [0, 1] [[0], [1]] [[], [0]] [some 1, none] [1] []).remainingFactors).count 0
      = 1 :=
  construct_factor_partition 2 [(0, [0]), (1, [0, 1])] [0, 1]
    (ETResult.mk [0, 1] [[0], [1]] [[], [0]] [some 1, none] [1] []) rfl 0 (by decide)

/-- C8: for every graph, variable index and non-empty ordering on which
construction succeeds, the node created for the last ordering entry has no
parent after the sweep — it is a forest root, so the structural assertion
`parents.back() == none` never fails. -/
theorem construct_last_root (m : Nat) (vi : VariableIndexUnordered)
    (order : List Nat) (res : ETResult)
    (h : eliminationTreeConstruct m vi order = .ok res) (hne : order ≠ []) :
    res.parents.getD (order.length - 1) none = none ∧
    (order.length - 1) ∈ res.roots := by
  obtain ⟨st, hinv, _, hpar, hroots, _⟩ := construct_ok_state m vi order res h
  have hn1 : order.length - 1 < order.length := by
    have : order.length ≠ 0 := fun h0 => hne (List.eq_nil_of_length_eq_zero h0)
    omega
  have hnone : st.parents.getD (order.length - 1) none = none := by
    cases hcase : st.parents.getD (order.length - 1) none with
    | none => rfl
    | some y =>
      obtain ⟨h1, h2⟩ := hinv.parentsLt _ _ hcase
      omega
  constructor
  · rw [hpar]
    exact hnone
  · rw [hroots]
    refine List.mem_filter.mpr ⟨List.mem_range.mpr hn1, ?_⟩
    rw [hnone]
    rfl

/-- Witness for C8 on the same two-variable chain: the node of the last
ordering entry (index 1) is parentless and listed among the roots. -/
theorem construct_last_root_witness :
    (ETResult.mk [0, 1] [[0], [1]] [[], [0]] [some 1, none] [1] []).parents.getD 1 none
      = none ∧
    1 ∈ (ETResult.mk [0, 1] [[0], [1]] [[], [0]] [some 1, none] [1] []).roots :=
  construct_last_root 2 [(0, [0]), (1, [0, 1])] [0, 1]
    (ETResult.mk [0, 1] [[0], [1]] [[], [0]] [some 1, none] [1] []) rfl (by decide)

theorem buildLoop_err (vi : VariableIndexUnordered) :
    ∀ (ord : List Nat) (j : Nat) (st : ETBuildState),
    (∃ key ∈ ord, ∃ e, viLookup vi key = .error e) →
    buildLoop vi ord j st = .error etConstructorMsg := by
  intro ord
  induction ord with
  | nil =>
    intro j st h
    obtain ⟨key, hk, _⟩ := h
    simp at hk
  | cons k rest ih =>
    intro j st h
    cases hv : viLookup vi k with
    | error e => rw [buildLoop, hv]
    | ok fs =>
      obtain ⟨key, hkmem, e, herr⟩ := h
      have hkr : key ∈ rest := by
        cases List.mem_cons.mp hkmem with
        | inl heq =>
          subst heq
          rw [hv] at herr
          simp at herr
        | inr hr => exact hr
      rw [buildLoop, hv]
      exact ih (j + 1) _ ⟨key, hkr, e, herr⟩

/-- C5: if the variable-index lookup fails for some ordering entry, the
three-argument constructor fails with the informative `InvalidOrdering`
message ("given ordering contains variables that are not involved in the
factor graph") instead of surfacing the raw lookup error. -/
theorem construct_invalid_ordering (m : Nat) (vi : VariableIndexUnordered)
    (order : List Nat)
    (h : ∃ key ∈ order, ∃ e, viLookup vi key = .error e) :
    eliminationTreeConstruct m vi order = .error etConstructorMsg := by
  unfold eliminationTreeConstruct
  rw [buildLoop_err vi order 0 (initState order.length m) h]

/-- Witness for C5: ordering `[1]` over a graph whose only variable is `0`
makes construction fail with the `InvalidOrdering` message. -/
theorem construct_invalid_ordering_witness :
    eliminationTreeConstruct 1 [(0, [0])] [1] = .error etConstructorMsg :=
  construct_invalid_ordering 1 [(0, [0])] [1] ⟨1, by decide, rawLookupMsg, rfl⟩

end Gtsam

